import Mathlib

/-!
# Verification of the figaro incremental figure-build core

Shallow embedding of `src/figaro/figarocli.py` and `src/figaro/figarodec.py`:

* `FigCtl` models the AST tag discovery (`FigCtlTagFilter` and the
  `fig_generators` loop),
* `Hash` models the streaming `checksum` function,
* `Meta` models the fingerprint store (`meta_content`) and the per-routine
  staleness evaluation block of `main`,
* `Orch` models the orchestration loop over discovered routines, with the
  collaborator contract that a run creates the artifact file,
* `Runner` models the per-routine attribute resolution and signature
  validation pipeline,
* `Cli` models the input validation and the process exit code.
-/

set_option autoImplicit false

namespace FigCtl

/-- Decorator expressions, as far as `FigCtlTagFilter` inspects them:
`ast.Name` carries an `id`, `ast.Attribute` has a value and attribute
name, `ast.Call` wraps the called function expression. -/
inductive Expr where
  | name (id : String)
  | attribute (value : Expr) (attr : String)
  | call (func : Expr)
deriving DecidableEq, Repr

/-- Statements, as far as discovery inspects them: function definitions
(with decorator list and body), class definitions (with body), and
anything else. -/
inductive Stmt where
  | functionDef (name : String) (decorators : List Expr) (body : List Stmt)
  | classDef (name : String) (body : List Stmt)
  | other
deriving Repr

/-- `getattr(dec.func, "id", "")`: the `id` of a `Name` node, `""` for
any other node kind. -/
def funcId : Expr → String
  | Expr.name id => id
  | _ => ""

/-- The test in `FigCtlTagFilter.visit_FunctionDef`:
`isinstance(dec, ast.Call) and getattr(dec.func, "id", "") == "figarotag"`. -/
def isTagDec : Expr → Bool
  | Expr.call f => funcId f == "figarotag"
  | _ => false

/-- The visitor run over a list of statements. `visit_FunctionDef`
appends the function's name once per matching decorator and then calls
`generic_visit`, which recurses into the body; `ClassDef` has no
dedicated visit method, so `generic_visit` recurses into its body too. -/
def visitStmts : List Stmt → List String
  | [] => []
  | Stmt.functionDef n decs body :: rest =>
      ((decs.filter isTagDec).map (fun _ => n)) ++ visitStmts body ++ visitStmts rest
  | Stmt.classDef _ body :: rest => visitStmts body ++ visitStmts rest
  | Stmt.other :: rest => visitStmts rest

/-- All function definitions appearing anywhere in a statement list, in
pre-order (declaration) order, paired with their decorator lists. -/
def allDefs : List Stmt → List (String × List Expr)
  | [] => []
  | Stmt.functionDef n decs body :: rest => (n, decs) :: (allDefs body ++ allDefs rest)
  | Stmt.classDef _ body :: rest => allDefs body ++ allDefs rest
  | Stmt.other :: rest => allDefs rest

/-- The per-file discovery step in `main`: a file enters
`fig_generators` only when the visitor collected at least one name. -/
def discoverFile (ts : List Stmt) : Option (List String) :=
  if visitStmts ts = [] then none else some (visitStmts ts)

/-- Discovery over all source files (the `for file in src_files` loop
building `fig_generators`). -/
def discover (files : List (String × List Stmt)) : List (String × List String) :=
  files.filterMap (fun p => (discoverFile p.2).map (fun l => (p.1, l)))

/-- A function definition named `n` occurs somewhere in `ts` with at
least one decorator matching the tag test. -/
def TaggedIn (ts : List Stmt) (n : String) : Prop :=
  ∃ p ∈ allDefs ts, p.1 = n ∧ ∃ d ∈ p.2, isTagDec d = true

instance (ts : List Stmt) (n : String) : Decidable (TaggedIn ts n) := by
  unfold TaggedIn; infer_instance

end FigCtl

namespace Hash

/-- The chunked read loop `iter(lambda: f.read(8192), b"")`: successive
blocks of at most 8192 bytes, stopping at the empty read. -/
def readChunks (l : List Nat) : List (List Nat) :=
  if l = [] then [] else l.take 8192 :: readChunks (l.drop 8192)
termination_by l.length
decreasing_by
  rename_i h
  have : l.length ≠ 0 := fun h0 => h (List.eq_nil_of_length_eq_zero h0)
  simp [List.length_drop]
  omega

/-- `hash_function.update(chunk)`: hashlib guarantees that feeding the
data in pieces is equivalent to feeding the concatenation, so the
absorbing state is the byte sequence absorbed so far. -/
def hashUpdate (s chunk : List Nat) : List Nat := s ++ chunk

/-- The `checksum` function of `figarocli.py`: stream the file content
in 8192-byte chunks through `update` and take the digest `H` of the
absorbed state. `H` abstracts `hashlib.new(algorithm)...hexdigest()`. -/
def checksum (H : List Nat → String) (content : List Nat) : String :=
  H ((readChunks content).foldl hashUpdate [])

end Hash

namespace Meta

/-- One entry of the metadata file: the JSON object stored under an
absolute source-file path. `none` models an absent field (a corrupt
record). -/
structure Record where
  checksum : Option String
  dependents : Option (List String)
deriving DecidableEq, Repr

/-- The in-memory `meta_content` dictionary, keyed by absolute source
file path. -/
abbrev Store := List (String × Record)

/-- `full_fp in meta_content` / `meta_content[full_fp]`. -/
def slookup : Store → String → Option Record
  | [], _ => none
  | (k, r) :: rest, key => if k = key then some r else slookup rest key

/-- `meta_content[full_fp] = ...`: Python dict assignment replaces the
existing entry or appends a new one. -/
def supdate : Store → String → Record → Store
  | [], key, r => [(key, r)]
  | (k, r0) :: rest, key, r =>
      if k = key then (key, r) :: rest else (k, r0) :: supdate rest key r

/-- The three ways a routine's metadata evaluation can end: skip the
routine (`continue` on unchanged checksum with existing artifact), run
it, or report store corruption and `continue` without running. -/
inductive Decision where
  | skip
  | run
  | corrupt
deriving DecidableEq, Repr

/-- The dependents bookkeeping shared by the run branches inside the
`full_fp in meta_content` arm: a missing `dependents` field is a
corruption error (`continue`); otherwise the save path is appended when
absent. -/
def depsPhase (store : Store) (fp save : String) (rec : Record) : Decision × Store :=
  match rec.dependents with
  | none => (Decision.corrupt, store)
  | some deps =>
      if save ∈ deps then (Decision.run, store)
      else (Decision.run, supdate store fp { rec with dependents := some (deps ++ [save]) })

/-- The metadata block of `main` for one routine, lines 225–267 of
`figarocli.py`: `store` is `meta_content`, `fp` is `full_fp`, `save` is
`str(save_path.resolve())`, `fresh` is `script_checksum`, and
`artifactExists` is `save_path.exists() and save_path.is_file()`. -/
def evalRoutine (force : Bool) (store : Store) (fp save fresh : String)
    (artifactExists : Bool) : Decision × Store :=
  match slookup store fp with
  | some rec =>
      match rec.checksum with
      | none => (Decision.corrupt, store)
      | some stored =>
          if stored = fresh ∧ force = false then
            if artifactExists then (Decision.skip, store)
            else depsPhase store fp save rec
          else
            depsPhase (supdate store fp { rec with checksum := some fresh }) fp save
              { rec with checksum := some fresh }
  | none =>
      (Decision.run, supdate store fp ⟨some fresh, some [save]⟩)

/-- A record carrying both expected fields. -/
def WFRecord (r : Record) : Prop := r.checksum.isSome ∧ r.dependents.isSome

/-- A store whose records all carry both expected fields. -/
def WFStore (st : Store) : Prop := ∀ p ∈ st, WFRecord p.2

instance (r : Record) : Decidable (WFRecord r) := by unfold WFRecord; infer_instance

instance (st : Store) : Decidable (WFStore st) := by unfold WFStore; infer_instance

end Meta

namespace Orch

/-- A discovered routine after output-path resolution: the absolute
path of its containing source file and the resolved artifact path. -/
structure RoutineJob where
  fp : String
  save : String
deriving DecidableEq, Repr

/-- Orchestration state: the in-memory metadata store and the set of
files currently existing on disk (the artifact filesystem). -/
structure RState where
  store : Meta.Store
  fs : List String
deriving DecidableEq, Repr

/-- Processing of one routine in the `for fnc in fncts` loop: evaluate
the metadata block, and on a run decision invoke the generator, which
by the collaborator contract creates a file at the save path. -/
def stepJob (hash : String → String) (force : Bool) (s : RState) (j : RoutineJob) :
    RState × Meta.Decision :=
  let r := Meta.evalRoutine force s.store j.fp j.save (hash j.fp) (decide (j.save ∈ s.fs))
  match r.1 with
  | Meta.Decision.run =>
      (⟨r.2, if j.save ∈ s.fs then s.fs else s.fs ++ [j.save]⟩, Meta.Decision.run)
  | d => (⟨r.2, s.fs⟩, d)

/-- The orchestration loop over all discovered routines, in order,
returning the final state and the per-routine decisions. -/
def runJobs (hash : String → String) (force : Bool) :
    RState → List RoutineJob → RState × List Meta.Decision
  | s, [] => (s, [])
  | s, j :: rest =>
      let p := stepJob hash force s j
      let q := runJobs hash force p.1 rest
      (q.1, p.2 :: q.2)

/-- A routine whose store record already holds the current hash of its
file and whose artifact exists on disk: exactly the situation in which
the evaluation skips. -/
def Ready (hash : String → String) (s : RState) (j : RoutineJob) : Prop :=
  ∃ rec, Meta.slookup s.store j.fp = some rec ∧
    rec.checksum = some (hash j.fp) ∧ j.save ∈ s.fs

end Orch

namespace Runner

/-- What the runner inspects about a loaded attribute: its parameter
list (each parameter recording whether its annotation is
`pathlib.Path`) and the `_figaroname` / `_figaroext` attributes set by
the `figarotag` decorator (`none` models an absent attribute). -/
structure PyFn where
  paramsPathAnnotated : List Bool
  figaroname : Option String
  figaroext : Option String
deriving DecidableEq, Repr

/-- Attribute lookup on the loaded module object. -/
def flookup : List (String × PyFn) → String → Option PyFn
  | [], _ => none
  | (k, f) :: rest, key => if k = key then some f else flookup rest key

/-- Non-crashing outcomes of resolving one routine: a signature
mismatch is printed and the loop continues; otherwise the save path
`out/<name>.<ext>` is resolved. -/
inductive ResolveOutcome where
  | sigMismatch
  | resolved (savePath : String)
deriving DecidableEq, Repr

/-- Lines 188–218 of `figarocli.py` for one routine name. The
`hasattr` checks only print: execution falls through to `getattr`,
which raises `AttributeError` when the attribute is absent, modelled
as `Except.error`. Signature mismatches print and `continue`. -/
def resolveRoutine (out : String) (module : List (String × PyFn)) (fnc : String) :
    Except String ResolveOutcome :=
  match flookup module fnc with
  | none => Except.error ("AttributeError: " ++ fnc)
  | some fn =>
      match fn.paramsPathAnnotated with
      | [isPath] =>
          if isPath = false then Except.ok ResolveOutcome.sigMismatch
          else
            match fn.figaroname with
            | none => Except.error ("AttributeError: _figaroname on " ++ fnc)
            | some nm =>
                match fn.figaroext with
                | none => Except.error ("AttributeError: _figaroext on " ++ fnc)
                | some ext =>
                    Except.ok (ResolveOutcome.resolved (out ++ "/" ++ nm ++ "." ++ ext))
      | _ => Except.ok ResolveOutcome.sigMismatch

/-- The `for fnc in fncts` loop, resolution part: an uncaught
`AttributeError` propagates out of `main` and aborts the whole run, so
it is threaded through `Except`. -/
def runRoutines (out : String) (module : List (String × PyFn)) :
    List String → Except String (List ResolveOutcome)
  | [] => Except.ok []
  | fnc :: rest =>
      match resolveRoutine out module fnc with
      | Except.error e => Except.error e
      | Except.ok o =>
          match runRoutines out module rest with
          | Except.error e => Except.error e
          | Except.ok os => Except.ok (o :: os)

end Runner

namespace Cli

/-- What input validation observes about one search root. -/
structure DirInfo where
  pathExists : Bool
  isDir : Bool
deriving DecidableEq, Repr

/-- Validation either exits the process with code 1 or proceeds. -/
inductive ValResult where
  | exitOne
  | proceed
deriving DecidableEq, Repr

/-- Lines 99–117 of `figarocli.py`: search-directory validation, then
output-directory handling. The returned Bool records whether the
`mkdir` side effect was performed. A directory freshly created by
`mkdir` is a directory, so the `is_dir` re-check passes in that case. -/
def validate (dirs : Option (List DirInfo)) (outExists outIsDir : Bool) :
    ValResult × Bool :=
  match dirs with
  | none => (ValResult.exitOne, false)
  | some ds =>
      if ds = [] then (ValResult.exitOne, false)
      else if ds.any (fun d => !d.pathExists || !d.isDir) then (ValResult.exitOne, false)
      else if outExists = false then (ValResult.proceed, true)
      else if outIsDir = false then (ValResult.exitOne, false)
      else (ValResult.proceed, false)

/-- The process exit code: 1 from a validation `exit(1)`, otherwise
`main` runs the orchestration loop to the end, whatever the individual
routine decisions were, and the process exits 0. -/
def mainExit (hash : String → String) (force : Bool) (dirs : Option (List DirInfo))
    (outExists outIsDir : Bool) (s0 : Orch.RState) (jobs : List Orch.RoutineJob) : Nat :=
  match (validate dirs outExists outIsDir).1 with
  | ValResult.exitOne => 1
  | ValResult.proceed =>
      let _ := Orch.runJobs hash force s0 jobs
      0

end Cli

namespace FigCtl

theorem visitStmts_eq_flatMap (ts : List Stmt) :
    visitStmts ts =
      (allDefs ts).flatMap (fun p => (p.2.filter isTagDec).map (fun _ => p.1)) := by
  induction ts using visitStmts.induct with
  | case1 => simp [visitStmts, allDefs]
  | case2 n decs body rest ih1 ih2 =>
      simp [visitStmts, allDefs, ih1, ih2]
  | case3 c body rest ih1 ih2 =>
      simp [visitStmts, allDefs, ih1, ih2]
  | case4 rest ih => simp [visitStmts, allDefs, ih]

theorem mem_visitStmts_iff (ts : List Stmt) (n : String) :
    n ∈ visitStmts ts ↔ TaggedIn ts n := by
  rw [visitStmts_eq_flatMap]
  simp only [List.mem_flatMap, List.mem_map, List.mem_filter, TaggedIn]
  constructor
  · rintro ⟨⟨m, decs⟩, hmem, d, ⟨hd, htag⟩, hn⟩
    exact ⟨(m, decs), hmem, hn, d, hd, htag⟩
  · rintro ⟨⟨m, decs⟩, hmem, hn, d, hd, htag⟩
    exact ⟨(m, decs), hmem, d, ⟨hd, htag⟩, hn⟩

end FigCtl

namespace Hash

theorem foldl_hashUpdate_readChunks (l : List Nat) :
    ∀ acc : List Nat, (readChunks l).foldl hashUpdate acc = acc ++ l := by
  induction l using readChunks.induct with
  | case1 => intro acc; rw [readChunks]; simp
  | case2 l h ih =>
      intro acc
      rw [readChunks]
      simp only [if_neg h, List.foldl_cons]
      rw [ih]
      simp [hashUpdate, List.append_assoc]

end Hash

namespace Meta

theorem slookup_supdate_self (store : Store) (k : String) (r : Record) :
    slookup (supdate store k r) k = some r := by
  induction store with
  | nil => simp [supdate, slookup]
  | cons p rest ih =>
      obtain ⟨k0, r0⟩ := p
      by_cases h : k0 = k <;> simp [supdate, slookup, h, ih]

theorem slookup_supdate_ne (store : Store) (k k' : String) (r : Record)
    (h : k ≠ k') : slookup (supdate store k r) k' = slookup store k' := by
  induction store with
  | nil => simp [supdate, slookup, h]
  | cons p rest ih =>
      obtain ⟨k0, r0⟩ := p
      by_cases h0 : k0 = k
      · subst h0; simp [supdate, slookup, h, ih]
      · simp [supdate, slookup, h0, ih]

theorem slookup_mem (store : Store) (k : String) (r : Record)
    (h : slookup store k = some r) : (k, r) ∈ store := by
  induction store with
  | nil => simp [slookup] at h
  | cons p rest ih =>
      obtain ⟨k0, r0⟩ := p
      by_cases h0 : k0 = k
      · subst h0
        simp [slookup] at h
        simp [h]
      · simp [slookup, h0] at h
        exact List.mem_cons_of_mem _ (ih h)

theorem record_set_deps_eq (rec : Record) (deps : List String)
    (hd : rec.dependents = some deps) :
    ({ checksum := rec.checksum, dependents := some deps } : Record) = rec := by
  cases rec with
  | mk c d => simp only at hd; simp [hd]

theorem depsPhase_spec (store : Store) (fp save : String) (rec : Record)
    (deps : List String) (hlk : slookup store fp = some rec)
    (hd : rec.dependents = some deps) :
    (depsPhase store fp save rec).1 = Decision.run ∧
    ∃ deps', slookup (depsPhase store fp save rec).2 fp =
        some { checksum := rec.checksum, dependents := some deps' } ∧
      save ∈ deps' ∧ deps ⊆ deps' ∧ (save ∈ deps → deps' = deps) := by
  by_cases hmem : save ∈ deps
  · refine ⟨?_, deps, ?_, hmem, List.Subset.refl _, fun _ => rfl⟩
    · simp [depsPhase, hd, hmem]
    · simp only [depsPhase, hd, if_pos hmem]
      rw [record_set_deps_eq rec deps hd]
      exact hlk
  · refine ⟨?_, deps ++ [save], ?_, by simp, List.subset_append_left _ _,
      fun h => absurd h hmem⟩
    · simp [depsPhase, hd, hmem]
    · simp only [depsPhase, hd, if_neg hmem]
      exact slookup_supdate_self _ _ _

theorem depsPhase_lookup_ne (store : Store) (fp save : String) (rec : Record)
    (k : String) (hk : fp ≠ k) :
    slookup (depsPhase store fp save rec).2 k = slookup store k := by
  cases hd : rec.dependents with
  | none => simp [depsPhase, hd]
  | some deps =>
      by_cases hmem : save ∈ deps
      · simp [depsPhase, hd, hmem]
      · simp [depsPhase, hd, hmem, slookup_supdate_ne _ _ _ _ hk]

theorem eval_lookup_ne (force : Bool) (store : Store) (fp save fresh : String)
    (ae : Bool) (k : String) (hk : fp ≠ k) :
    slookup (evalRoutine force store fp save fresh ae).2 k = slookup store k := by
  cases hlk : slookup store fp with
  | none => simp [evalRoutine, hlk, slookup_supdate_ne _ _ _ _ hk]
  | some rec =>
      cases hc : rec.checksum with
      | none => simp [evalRoutine, hlk, hc]
      | some stored =>
          by_cases hcond : stored = fresh ∧ force = false
          · by_cases hae : ae = true
            · simp [evalRoutine, hlk, hc, hcond, hae]
            · simp only [Bool.not_eq_true] at hae
              simp [evalRoutine, hlk, hc, hcond, hae,
                depsPhase_lookup_ne _ _ _ _ _ hk]
          · simp [evalRoutine, hlk, hc, hcond, depsPhase_lookup_ne _ _ _ _ _ hk,
              slookup_supdate_ne _ _ _ _ hk]

theorem eval_skip_iff (force : Bool) (store : Store) (fp save fresh : String)
    (ae : Bool) :
    (evalRoutine force store fp save fresh ae).1 = Decision.skip ↔
      ((∃ rec, slookup store fp = some rec ∧ rec.checksum = some fresh) ∧
        force = false ∧ ae = true) := by
  cases hlk : slookup store fp with
  | none => simp [evalRoutine, hlk]
  | some rec =>
      cases hc : rec.checksum with
      | none => simp [evalRoutine, hlk, hc]
      | some stored =>
          by_cases hcond : stored = fresh ∧ force = false
          · by_cases hae : ae = true
            · simp only [evalRoutine, hlk, hc, if_pos hcond, hae, if_true]
              simp [hlk, hc, hcond.1, hcond.2, hae]
            · simp only [Bool.not_eq_true] at hae
              subst hae
              have hrun : ∀ st, (depsPhase st fp save rec).1 ≠ Decision.skip := by
                intro st
                cases hd : rec.dependents with
                | none => simp [depsPhase, hd]
                | some deps =>
                    by_cases hmem : save ∈ deps <;> simp [depsPhase, hd, hmem]
              simp only [evalRoutine, hlk, hc, if_pos hcond, Bool.false_eq_true,
                if_false]
              simp [hrun store]
          · have hrun : ∀ st r, (depsPhase st fp save r).1 ≠ Decision.skip := by
              intro st r
              cases hd : r.dependents with
              | none => simp [depsPhase, hd]
              | some deps =>
                  by_cases hmem : save ∈ deps <;> simp [depsPhase, hd, hmem]
            simp only [evalRoutine, hlk, hc, if_neg hcond]
            constructor
            · intro h; exact absurd h (hrun _ _)
            · rintro ⟨⟨rec', hlk', hc'⟩, hforce, -⟩
              exfalso
              obtain rfl : rec = rec' := by injection hlk'
              rw [hc] at hc'
              injection hc' with hsf
              exact hcond ⟨hsf, hforce⟩

theorem eval_skip_store (force : Bool) (store : Store) (fp save fresh : String)
    (ae : Bool) (h : (evalRoutine force store fp save fresh ae).1 = Decision.skip) :
    (evalRoutine force store fp save fresh ae).2 = store := by
  have hs := (eval_skip_iff force store fp save fresh ae).mp h
  rcases hs with ⟨⟨rec, hlk, hc⟩, hforce, hae⟩
  simp [evalRoutine, hlk, hc, hforce, hae]

theorem supdate_WF (store : Store) (k : String) (r : Record) (hr : WFRecord r) :
    WFStore store → WFStore (supdate store k r) := by
  induction store with
  | nil =>
      intro _ p hp
      simp [supdate] at hp
      rw [hp]
      exact hr
  | cons q rest ih =>
      obtain ⟨k0, r0⟩ := q
      intro hst
      by_cases h : k0 = k
      · subst h
        simp only [supdate, if_pos rfl]
        intro p hp
        rcases List.mem_cons.mp hp with hp | hp
        · subst hp; exact hr
        · exact hst _ (List.mem_cons_of_mem _ hp)
      · simp only [supdate, if_neg h]
        intro p hp
        rcases List.mem_cons.mp hp with hp | hp
        · subst hp; exact hst _ (List.mem_cons_self _ _)
        · exact ih (fun q hq => hst q (List.mem_cons_of_mem _ hq)) _ hp

theorem depsPhase_WF (store : Store) (fp save : String) (rec : Record)
    (hst : WFStore store) (hc : rec.checksum.isSome) :
    WFStore (depsPhase store fp save rec).2 := by
  cases hd : rec.dependents with
  | none => simpa [depsPhase, hd] using hst
  | some deps =>
      by_cases hmem : save ∈ deps
      · simpa [depsPhase, hd, hmem] using hst
      · simp only [depsPhase, hd, if_neg hmem]
        exact supdate_WF _ _ _ ⟨hc, by simp⟩ hst

theorem eval_WF (force : Bool) (store : Store) (fp save fresh : String) (ae : Bool)
    (hst : WFStore store) :
    WFStore (evalRoutine force store fp save fresh ae).2 := by
  cases hlk : slookup store fp with
  | none =>
      simp only [evalRoutine, hlk]
      exact supdate_WF _ _ _ ⟨by simp, by simp⟩ hst
  | some rec =>
      have hwrec : WFRecord rec := hst _ (slookup_mem _ _ _ hlk)
      cases hc : rec.checksum with
      | none => simpa [evalRoutine, hlk, hc] using hst
      | some stored =>
          by_cases hcond : stored = fresh ∧ force = false
          · by_cases hae : ae = true
            · simpa [evalRoutine, hlk, hc, hcond, hae] using hst
            · simp only [Bool.not_eq_true] at hae
              simp only [evalRoutine, hlk, hc, if_pos hcond, hae, Bool.false_eq_true,
                if_false]
              exact depsPhase_WF _ _ _ _ hst (by simp [hc])
          · simp only [evalRoutine, hlk, hc, if_neg hcond]
            refine depsPhase_WF _ _ _ _ (supdate_WF _ _ _ ⟨by simp, ?_⟩ hst) (by simp)
            exact hwrec.2

theorem eval_not_corrupt (force : Bool) (store : Store) (fp save fresh : String)
    (ae : Bool) (hWF : ∀ rec, slookup store fp = some rec → WFRecord rec) :
    (evalRoutine force store fp save fresh ae).1 ≠ Decision.corrupt := by
  cases hlk : slookup store fp with
  | none => simp [evalRoutine, hlk]
  | some rec =>
      have hwrec := hWF rec hlk
      obtain ⟨cs, hc⟩ := Option.isSome_iff_exists.mp hwrec.1
      obtain ⟨deps, hd⟩ := Option.isSome_iff_exists.mp hwrec.2
      by_cases hcond : cs = fresh ∧ force = false
      · by_cases hae : ae = true
        · simp [evalRoutine, hlk, hc, hcond, hae]
        · simp only [Bool.not_eq_true] at hae
          simp only [evalRoutine, hlk, hc, if_pos hcond, hae, Bool.false_eq_true,
            if_false]
          have := (depsPhase_spec store fp save rec deps hlk hd).1
          intro hcontra
          rw [hcontra] at this
          exact absurd this (by simp)
      · simp only [evalRoutine, hlk, hc, if_neg hcond]
        have hlk1 := slookup_supdate_self store fp
          { checksum := some fresh, dependents := rec.dependents }
        have := (depsPhase_spec _ fp save _ deps hlk1 (by simpa using hd)).1
        intro hcontra
        rw [hcontra] at this
        exact absurd this (by simp)

theorem eval_eq_skip (force : Bool) (store : Store) (fp save fresh : String)
    (ae : Bool) (rec : Record) (stored : String)
    (hlk : slookup store fp = some rec) (hc : rec.checksum = some stored)
    (hcond : stored = fresh ∧ force = false) (hae : ae = true) :
    evalRoutine force store fp save fresh ae = (Decision.skip, store) := by
  simp [evalRoutine, hlk, hc, hcond, hae]

theorem eval_eq_deps (force : Bool) (store : Store) (fp save fresh : String)
    (ae : Bool) (rec : Record) (stored : String)
    (hlk : slookup store fp = some rec) (hc : rec.checksum = some stored)
    (hcond : stored = fresh ∧ force = false) (hae : ae = false) :
    evalRoutine force store fp save fresh ae = depsPhase store fp save rec := by
  simp only [evalRoutine, hlk, hc, if_pos hcond, hae, Bool.false_eq_true, if_false]

theorem eval_eq_else (force : Bool) (store : Store) (fp save fresh : String)
    (ae : Bool) (rec : Record) (stored : String)
    (hlk : slookup store fp = some rec) (hc : rec.checksum = some stored)
    (hcond : ¬(stored = fresh ∧ force = false)) :
    evalRoutine force store fp save fresh ae =
      depsPhase (supdate store fp { checksum := some fresh, dependents := rec.dependents })
        fp save { checksum := some fresh, dependents := rec.dependents } := by
  simp only [evalRoutine, hlk, hc, if_neg hcond]

theorem eval_eq_new (force : Bool) (store : Store) (fp save fresh : String)
    (ae : Bool) (hlk : slookup store fp = none) :
    evalRoutine force store fp save fresh ae =
      (Decision.run, supdate store fp ⟨some fresh, some [save]⟩) := by
  simp [evalRoutine, hlk]

theorem eval_run_lookup (force : Bool) (store : Store) (fp save fresh : String)
    (ae : Bool) (hWF : ∀ rec, slookup store fp = some rec → WFRecord rec)
    (h : (evalRoutine force store fp save fresh ae).1 = Decision.run) :
    ∃ rec' deps', slookup (evalRoutine force store fp save fresh ae).2 fp = some rec' ∧
      rec'.checksum = some fresh ∧ rec'.dependents = some deps' ∧ save ∈ deps' := by
  cases hlk : slookup store fp with
  | none =>
      rw [eval_eq_new force store fp save fresh ae hlk]
      exact ⟨⟨some fresh, some [save]⟩, [save], slookup_supdate_self _ _ _, rfl, rfl,
        by simp⟩
  | some rec =>
      have hwrec := hWF rec hlk
      obtain ⟨cs, hc⟩ := Option.isSome_iff_exists.mp hwrec.1
      obtain ⟨deps, hd⟩ := Option.isSome_iff_exists.mp hwrec.2
      by_cases hcond : cs = fresh ∧ force = false
      · by_cases hae : ae = true
        · rw [eval_eq_skip force store fp save fresh ae rec cs hlk hc hcond hae] at h
          exact absurd h (by simp)
        · simp only [Bool.not_eq_true] at hae
          rw [eval_eq_deps force store fp save fresh ae rec cs hlk hc hcond hae]
          obtain ⟨-, deps', hdl, hmem, -, -⟩ := depsPhase_spec store fp save rec deps hlk hd
          exact ⟨{ checksum := rec.checksum, dependents := some deps' }, deps', hdl,
            by rw [hc, hcond.1], rfl, hmem⟩
      · rw [eval_eq_else force store fp save fresh ae rec cs hlk hc hcond]
        have hlk1 := slookup_supdate_self store fp
          { checksum := some fresh, dependents := rec.dependents }
        obtain ⟨-, deps', hdl, hmem, -, -⟩ :=
          depsPhase_spec _ fp save _ deps hlk1 (by simpa using hd)
        exact ⟨_, deps', hdl, rfl, rfl, hmem⟩

theorem eval_checksum_fresh_stable (force : Bool) (store : Store)
    (fp save fresh : String) (ae : Bool) (rec : Record)
    (hlk : slookup store fp = some rec) (hc : rec.checksum = some fresh) :
    ∃ rec', slookup (evalRoutine force store fp save fresh ae).2 fp = some rec' ∧
      rec'.checksum = some fresh := by
  by_cases hcond : fresh = fresh ∧ force = false
  · by_cases hae : ae = true
    · rw [eval_eq_skip force store fp save fresh ae rec fresh hlk hc hcond hae]
      exact ⟨rec, hlk, hc⟩
    · simp only [Bool.not_eq_true] at hae
      rw [eval_eq_deps force store fp save fresh ae rec fresh hlk hc hcond hae]
      cases hd : rec.dependents with
      | none =>
          refine ⟨rec, ?_, hc⟩
          simp only [depsPhase, hd]
          exact hlk
      | some deps =>
          obtain ⟨-, deps', hdl, -, -, -⟩ := depsPhase_spec store fp save rec deps hlk hd
          exact ⟨{ checksum := rec.checksum, dependents := some deps' }, hdl, hc⟩
  · rw [eval_eq_else force store fp save fresh ae rec fresh hlk hc hcond]
    cases hd : rec.dependents with
    | none =>
        refine ⟨{ checksum := some fresh, dependents := none }, ?_, rfl⟩
        simp only [depsPhase]
        exact slookup_supdate_self _ _ _
    | some deps =>
        have hlk1 := slookup_supdate_self store fp
          { checksum := some fresh, dependents := some deps }
        obtain ⟨-, deps', hdl, -, -, -⟩ :=
          depsPhase_spec _ fp save _ deps hlk1 rfl
        exact ⟨_, hdl, rfl⟩

theorem eval_corrupt_no_checksum (force : Bool) (store : Store)
    (fp save fresh : String) (ae : Bool) (rec : Record)
    (hlk : slookup store fp = some rec) (hc : rec.checksum = none) :
    evalRoutine force store fp save fresh ae = (Decision.corrupt, store) := by
  simp [evalRoutine, hlk, hc]

theorem eval_deps_monotone (force : Bool) (store : Store) (fp save fresh : String)
    (ae : Bool) (k : String) (rec : Record) (deps : List String)
    (hlk : slookup store k = some rec) (hd : rec.dependents = some deps) :
    ∃ rec' deps', slookup (evalRoutine force store fp save fresh ae).2 k = some rec' ∧
      rec'.dependents = some deps' ∧ deps ⊆ deps' ∧ (save ∈ deps → deps' = deps) := by
  by_cases hk : fp = k
  · subst hk
    cases hc : rec.checksum with
    | none =>
        rw [eval_corrupt_no_checksum force store fp save fresh ae rec hlk hc]
        exact ⟨rec, deps, hlk, hd, List.Subset.refl _, fun _ => rfl⟩
    | some stored =>
        by_cases hcond : stored = fresh ∧ force = false
        · by_cases hae : ae = true
          · rw [eval_eq_skip force store fp save fresh ae rec stored hlk hc hcond hae]
            exact ⟨rec, deps, hlk, hd, List.Subset.refl _, fun _ => rfl⟩
          · simp only [Bool.not_eq_true] at hae
            rw [eval_eq_deps force store fp save fresh ae rec stored hlk hc hcond hae]
            obtain ⟨-, deps', hdl, -, hsub, hidem⟩ :=
              depsPhase_spec store fp save rec deps hlk hd
            exact ⟨_, deps', hdl, rfl, hsub, hidem⟩
        · rw [eval_eq_else force store fp save fresh ae rec stored hlk hc hcond]
          have hlk1 := slookup_supdate_self store fp
            { checksum := some fresh, dependents := rec.dependents }
          obtain ⟨-, deps', hdl, -, hsub, hidem⟩ :=
            depsPhase_spec _ fp save _ deps hlk1 (by simpa using hd)
          exact ⟨_, deps', hdl, rfl, hsub, hidem⟩
  · refine ⟨rec, deps, ?_, hd, List.Subset.refl _, fun _ => rfl⟩
    rw [eval_lookup_ne force store fp save fresh ae k hk]
    exact hlk

theorem eval_corrupt_no_deps_changed (force : Bool) (store : Store)
    (fp save fresh : String) (ae : Bool) (rec : Record) (stored : String)
    (hlk : slookup store fp = some rec) (hc : rec.checksum = some stored)
    (hd : rec.dependents = none) (hcond : ¬(stored = fresh ∧ force = false)) :
    evalRoutine force store fp save fresh ae =
      (Decision.corrupt, supdate store fp { checksum := some fresh, dependents := none }) := by
  rw [eval_eq_else force store fp save fresh ae rec stored hlk hc hcond]
  simp [depsPhase, hd]

theorem eval_corrupt_no_deps_matching (store : Store) (fp fresh : String)
    (save2 : String) (rec : Record) (hlk : slookup store fp = some rec)
    (hc : rec.checksum = some fresh) (hd : rec.dependents = none) :
    evalRoutine false store fp save2 fresh false = (Decision.corrupt, store) := by
  rw [eval_eq_deps false store fp save2 fresh false rec fresh hlk hc ⟨rfl, rfl⟩ rfl]
  simp [depsPhase, hd]

end Meta

namespace Orch

open Meta

theorem stepJob_eq (hash : String → String) (force : Bool) (s : RState)
    (j : RoutineJob) :
    stepJob hash force s j =
      (⟨(evalRoutine force s.store j.fp j.save (hash j.fp) (decide (j.save ∈ s.fs))).2,
        if (evalRoutine force s.store j.fp j.save (hash j.fp)
              (decide (j.save ∈ s.fs))).1 = Decision.run
        then (if j.save ∈ s.fs then s.fs else s.fs ++ [j.save]) else s.fs⟩,
      (evalRoutine force s.store j.fp j.save (hash j.fp) (decide (j.save ∈ s.fs))).1) := by
  unfold stepJob
  cases hdec : (evalRoutine force s.store j.fp j.save (hash j.fp)
      (decide (j.save ∈ s.fs))).1 <;> simp [hdec]

theorem stepJob_store (hash : String → String) (force : Bool) (s : RState)
    (j : RoutineJob) :
    (stepJob hash force s j).1.store =
      (evalRoutine force s.store j.fp j.save (hash j.fp) (decide (j.save ∈ s.fs))).2 := by
  rw [stepJob_eq]

theorem stepJob_fs_mono (hash : String → String) (force : Bool) (s : RState)
    (j : RoutineJob) : s.fs ⊆ (stepJob hash force s j).1.fs := by
  rw [stepJob_eq]
  dsimp only
  by_cases hrun : (evalRoutine force s.store j.fp j.save (hash j.fp)
      (decide (j.save ∈ s.fs))).1 = Decision.run
  · rw [if_pos hrun]
    by_cases hmem : j.save ∈ s.fs
    · rw [if_pos hmem]
      exact List.Subset.refl _
    · rw [if_neg hmem]
      exact List.subset_append_left _ _
  · rw [if_neg hrun]
    exact List.Subset.refl _


theorem stepJob_WF (hash : String → String) (force : Bool) (s : RState)
    (j : RoutineJob) (hWF : WFStore s.store) :
    WFStore (stepJob hash force s j).1.store := by
  rw [stepJob_store]
  exact eval_WF _ _ _ _ _ _ hWF

theorem stepJob_skip_of_ready (hash : String → String) (s : RState) (j : RoutineJob)
    (hr : Ready hash s j) : stepJob hash false s j = (s, Decision.skip) := by
  obtain ⟨rec, hlk, hc, hmem⟩ := hr
  have hae : decide (j.save ∈ s.fs) = true := decide_eq_true hmem
  have heval := eval_eq_skip false s.store j.fp j.save (hash j.fp)
    (decide (j.save ∈ s.fs)) rec (hash j.fp) hlk hc ⟨rfl, rfl⟩ hae
  rw [stepJob_eq, heval]
  simp

theorem stepJob_ready_self (hash : String → String) (s : RState) (j : RoutineJob)
    (force : Bool) (hWF : WFStore s.store) :
    Ready hash (stepJob hash force s j).1 j := by
  have hWFat : ∀ rec, slookup s.store j.fp = some rec → WFRecord rec :=
    fun rec h => hWF _ (slookup_mem _ _ _ h)
  cases hdec : (evalRoutine force s.store j.fp j.save (hash j.fp)
      (decide (j.save ∈ s.fs))).1 with
  | corrupt => exact absurd hdec (eval_not_corrupt _ _ _ _ _ _ hWFat)
  | skip =>
      obtain ⟨⟨rec, hlk, hc⟩, -, hae⟩ :=
        (eval_skip_iff force s.store j.fp j.save (hash j.fp)
          (decide (j.save ∈ s.fs))).mp hdec
      have hst := eval_skip_store force s.store j.fp j.save (hash j.fp)
        (decide (j.save ∈ s.fs)) hdec
      refine ⟨rec, ?_, hc, ?_⟩
      · rw [stepJob_store, hst]
        exact hlk
      · exact stepJob_fs_mono hash force s j (of_decide_eq_true hae)
  | run =>
      obtain ⟨rec', deps', hlk', hc', hd', hmem'⟩ :=
        eval_run_lookup force s.store j.fp j.save (hash j.fp)
          (decide (j.save ∈ s.fs)) hWFat hdec
      refine ⟨rec', ?_, hc', ?_⟩
      · rw [stepJob_store]
        exact hlk'
      · rw [stepJob_eq]
        dsimp only
        rw [if_pos hdec]
        by_cases hmem : j.save ∈ s.fs
        · rw [if_pos hmem]; exact hmem
        · rw [if_neg hmem]; simp

theorem stepJob_preserves_ready (hash : String → String) (s : RState)
    (j j' : RoutineJob) (_hWF : WFStore s.store) (hr : Ready hash s j') :
    Ready hash (stepJob hash false s j).1 j' := by
  obtain ⟨rec, hlk, hc, hmem⟩ := hr
  have hfs := stepJob_fs_mono hash false s j
  by_cases hk : j.fp = j'.fp
  · obtain ⟨rec', hlk', hc'⟩ :=
      eval_checksum_fresh_stable false s.store j.fp j.save (hash j.fp)
        (decide (j.save ∈ s.fs)) rec (by rw [hk]; exact hlk) (by rw [hk]; exact hc)
    refine ⟨rec', ?_, ?_, hfs hmem⟩
    · rw [stepJob_store, ← hk]
      exact hlk'
    · rw [← hk]
      exact hc'
  · refine ⟨rec, ?_, hc, hfs hmem⟩
    rw [stepJob_store, eval_lookup_ne _ _ _ _ _ _ _ hk]
    exact hlk

theorem runJobs_eq_cons (hash : String → String) (force : Bool) (s : RState)
    (j : RoutineJob) (rest : List RoutineJob) :
    runJobs hash force s (j :: rest) =
      ((runJobs hash force (stepJob hash force s j).1 rest).1,
        (stepJob hash force s j).2 ::
          (runJobs hash force (stepJob hash force s j).1 rest).2) := rfl

theorem runJobs_WF (hash : String → String) (force : Bool) (s : RState)
    (jobs : List RoutineJob) (hWF : WFStore s.store) :
    WFStore (runJobs hash force s jobs).1.store := by
  induction jobs generalizing s with
  | nil => exact hWF
  | cons j rest ih =>
      rw [runJobs_eq_cons]
      exact ih _ (stepJob_WF hash force s j hWF)

theorem runJobs_preserves_ready (hash : String → String) (s : RState)
    (jobs : List RoutineJob) (j' : RoutineJob) (hWF : WFStore s.store)
    (hr : Ready hash s j') : Ready hash (runJobs hash false s jobs).1 j' := by
  induction jobs generalizing s with
  | nil => exact hr
  | cons j rest ih =>
      rw [runJobs_eq_cons]
      exact ih _ (stepJob_WF hash false s j hWF)
        (stepJob_preserves_ready hash s j j' hWF hr)

theorem runJobs_ready_all (hash : String → String) (s : RState)
    (jobs : List RoutineJob) (hWF : WFStore s.store) :
    ∀ j ∈ jobs, Ready hash (runJobs hash false s jobs).1 j := by
  induction jobs generalizing s with
  | nil => intro j hj; simp at hj
  | cons a rest ih =>
      intro j hj
      rw [runJobs_eq_cons]
      rcases List.mem_cons.mp hj with hj | hj
      · subst hj
        exact runJobs_preserves_ready hash _ rest j
          (stepJob_WF hash false s j hWF)
          (stepJob_ready_self hash s j false hWF)
      · exact ih _ (stepJob_WF hash false s a hWF) j hj

theorem runJobs_skip_of_ready (hash : String → String) (s : RState)
    (jobs : List RoutineJob) (hr : ∀ j ∈ jobs, Ready hash s j) :
    runJobs hash false s jobs = (s, List.replicate jobs.length Decision.skip) := by
  induction jobs with
  | nil => rfl
  | cons a rest ih =>
      have h1 := stepJob_skip_of_ready hash s a (hr a (List.mem_cons_self _ _))
      rw [runJobs_eq_cons, h1]
      have h2 := ih (fun j hj => hr j (List.mem_cons_of_mem _ hj))
      simp [h2, List.replicate_succ]

end Orch

namespace Meta

theorem eval_corrupt_no_deps_unchanged (force : Bool) (store : Store)
    (fp save fresh : String) (rec : Record) (stored : String)
    (hlk : slookup store fp = some rec) (hc : rec.checksum = some stored)
    (hd : rec.dependents = none) (hcond : stored = fresh ∧ force = false) :
    evalRoutine force store fp save fresh false = (Decision.corrupt, store) := by
  rw [eval_eq_deps force store fp save fresh false rec stored hlk hc hcond rfl]
  simp [depsPhase, hd]

end Meta

/-- Claim C1: for a discovered routine with a resolved output path, over a
well-formed store, the staleness decision is `skip` iff the store holds a
record for the file path whose stored checksum equals the fresh hash, the
force flag is false, and the artifact file exists; in every other case the
decision is `run`; and whenever a record exists whose stored hash differs
or force is set, the record left in the store has its checksum updated to
the fresh value. -/
theorem claim_C1_staleness_decision (force : Bool) (store : Meta.Store)
    (fp save fresh : String) (ae : Bool) (hWF : Meta.WFStore store) :
    ((Meta.evalRoutine force store fp save fresh ae).1 = Meta.Decision.skip ↔
      ((∃ rec, Meta.slookup store fp = some rec ∧ rec.checksum = some fresh) ∧
        force = false ∧ ae = true)) ∧
    ((Meta.evalRoutine force store fp save fresh ae).1 = Meta.Decision.skip ∨
      (Meta.evalRoutine force store fp save fresh ae).1 = Meta.Decision.run) ∧
    (∀ rec, Meta.slookup store fp = some rec →
      (rec.checksum ≠ some fresh ∨ force = true) →
      ∃ rec', Meta.slookup (Meta.evalRoutine force store fp save fresh ae).2 fp = some rec' ∧
        rec'.checksum = some fresh) := by
  have hWFat : ∀ rec, Meta.slookup store fp = some rec → Meta.WFRecord rec :=
    fun rec h => hWF _ (Meta.slookup_mem _ _ _ h)
  have hnotc := Meta.eval_not_corrupt force store fp save fresh ae hWFat
  refine ⟨Meta.eval_skip_iff force store fp save fresh ae, ?_, ?_⟩
  · cases hdec : (Meta.evalRoutine force store fp save fresh ae).1 with
    | skip => exact Or.inl rfl
    | run => exact Or.inr rfl
    | corrupt => exact absurd hdec hnotc
  · intro rec hlk hdiff
    have hns : (Meta.evalRoutine force store fp save fresh ae).1 ≠ Meta.Decision.skip := by
      intro hsk
      rw [Meta.eval_skip_iff] at hsk
      obtain ⟨⟨rec2, hlk2, hc2⟩, hforce, -⟩ := hsk
      rw [hlk] at hlk2
      obtain rfl : rec = rec2 := by injection hlk2
      rcases hdiff with h | h
      · exact h hc2
      · rw [h] at hforce
        cases hforce
    have hrun : (Meta.evalRoutine force store fp save fresh ae).1 = Meta.Decision.run := by
      cases hdec : (Meta.evalRoutine force store fp save fresh ae).1 with
      | skip => exact absurd hdec hns
      | run => rfl
      | corrupt => exact absurd hdec hnotc
    obtain ⟨rec', deps', h1, h2, -, -⟩ :=
      Meta.eval_run_lookup force store fp save fresh ae hWFat hrun
    exact ⟨rec', h1, h2⟩

/-- Witness for C1 at a concrete input: a well-formed store whose record
matches the fresh hash with the artifact present, where the decision is
`skip`. -/
theorem claim_C1_witness :
    Meta.WFStore [("a", ⟨some "h", some []⟩)] ∧
    (((Meta.evalRoutine false [("a", ⟨some "h", some []⟩)] "a" "p" "h" true).1 =
        Meta.Decision.skip ↔
      ((∃ rec, Meta.slookup [("a", ⟨some "h", some []⟩)] "a" = some rec ∧
          rec.checksum = some "h") ∧ false = false ∧ true = true)) ∧
    ((Meta.evalRoutine false [("a", ⟨some "h", some []⟩)] "a" "p" "h" true).1 =
        Meta.Decision.skip ∨
      (Meta.evalRoutine false [("a", ⟨some "h", some []⟩)] "a" "p" "h" true).1 =
        Meta.Decision.run) ∧
    (∀ rec, Meta.slookup [("a", ⟨some "h", some []⟩)] "a" = some rec →
      (rec.checksum ≠ some "h" ∨ false = true) →
      ∃ rec', Meta.slookup
          (Meta.evalRoutine false [("a", ⟨some "h", some []⟩)] "a" "p" "h" true).2 "a" =
            some rec' ∧ rec'.checksum = some "h")) :=
  ⟨by decide, claim_C1_staleness_decision false [("a", ⟨some "h", some []⟩)] "a" "p" "h" true
    (by decide)⟩

/-- Claim C2: starting from a well-formed store, running the orchestration
loop twice with the same inputs, unchanged file hashes, and no force flag
leaves the second run with every decision `skip` (zero executions) and the
final state — store keys, checksums, dependents, and filesystem — exactly
equal to the state after the first run. -/
theorem claim_C2_idempotent (hash : String → String) (s0 : Orch.RState)
    (jobs : List Orch.RoutineJob) (hWF : Meta.WFStore s0.store) :
    Orch.runJobs hash false (Orch.runJobs hash false s0 jobs).1 jobs =
      ((Orch.runJobs hash false s0 jobs).1,
        List.replicate jobs.length Meta.Decision.skip) :=
  Orch.runJobs_skip_of_ready hash _ jobs (Orch.runJobs_ready_all hash s0 jobs hWF)

/-- Witness for C2 at a concrete input: one routine, empty initial store
and filesystem. -/
theorem claim_C2_witness :
    Meta.WFStore (Orch.RState.mk [] []).store ∧
    Orch.runJobs (fun _ => "h") false
        (Orch.runJobs (fun _ => "h") false ⟨[], []⟩ [⟨"a", "p"⟩]).1 [⟨"a", "p"⟩] =
      ((Orch.runJobs (fun _ => "h") false ⟨[], []⟩ [⟨"a", "p"⟩]).1,
        List.replicate [(⟨"a", "p"⟩ : Orch.RoutineJob)].length Meta.Decision.skip) :=
  ⟨by decide, claim_C2_idempotent (fun _ => "h") ⟨[], []⟩ [⟨"a", "p"⟩] (by decide)⟩

/-- Claim C4 counterexample: a record that lacks the `dependents` field and
whose stored checksum differs from the fresh hash is reported as corrupt
and the routine is skipped, but its `checksum` field has already been
overwritten with the fresh value — contradicting the claim that no field
of a corrupt record is modified. -/
theorem claim_C4_counterexample :
    Meta.evalRoutine false [("f", ⟨some "old", none⟩)] "f" "p" "new" false =
      (Meta.Decision.corrupt, [("f", ⟨some "new", none⟩)]) ∧
    (⟨some "new", none⟩ : Meta.Record) ≠ ⟨some "old", none⟩ := by
  decide

/-- Claim C4 as amended: a record lacking the `checksum` field makes every
routine evaluation of that file report corruption and skip without
running, leaving the store untouched. A record lacking the `dependents`
field also never lets the routine run, but what happens depends on the
path taken: when the stored hash matches the fresh one, force is unset and
the artifact exists, the routine is silently skipped by the
unchanged-checksum `continue` with no corruption report and no
modification; when the hash matches, force is unset and the artifact is
missing, corruption is reported and the store is untouched; when the
stored hash differs or force is set, corruption is reported but the
record's checksum field has already been updated to the fresh value
before the corruption is detected. -/
theorem claim_C4_amended (force : Bool) (store : Meta.Store)
    (fp save fresh : String) (ae : Bool) (rec : Meta.Record)
    (hlk : Meta.slookup store fp = some rec) :
    (rec.checksum = none →
      Meta.evalRoutine force store fp save fresh ae = (Meta.Decision.corrupt, store)) ∧
    (∀ stored, rec.checksum = some stored → rec.dependents = none →
      ((Meta.evalRoutine force store fp save fresh ae).1 ≠ Meta.Decision.run ∧
       (stored = fresh ∧ force = false ∧ ae = true →
          Meta.evalRoutine force store fp save fresh ae = (Meta.Decision.skip, store)) ∧
       (stored = fresh ∧ force = false ∧ ae = false →
          Meta.evalRoutine force store fp save fresh ae = (Meta.Decision.corrupt, store)) ∧
       (¬(stored = fresh ∧ force = false) →
          Meta.evalRoutine force store fp save fresh ae =
            (Meta.Decision.corrupt,
              Meta.supdate store fp ⟨some fresh, none⟩)))) := by
  refine ⟨fun hc => Meta.eval_corrupt_no_checksum force store fp save fresh ae rec hlk hc,
    fun stored hc hd => ⟨?_, ?_, ?_, ?_⟩⟩
  · by_cases hcond : stored = fresh ∧ force = false
    · by_cases hae : ae = true
      · rw [Meta.eval_eq_skip force store fp save fresh ae rec stored hlk hc hcond hae]
        simp
      · simp only [Bool.not_eq_true] at hae
        subst hae
        rw [Meta.eval_corrupt_no_deps_unchanged force store fp save fresh rec stored
          hlk hc hd hcond]
        simp
    · rw [Meta.eval_corrupt_no_deps_changed force store fp save fresh ae rec stored
        hlk hc hd hcond]
      simp
  · rintro ⟨h1, h2, h3⟩
    exact Meta.eval_eq_skip force store fp save fresh ae rec stored hlk hc ⟨h1, h2⟩ h3
  · rintro ⟨h1, h2, h3⟩
    subst h3
    exact Meta.eval_corrupt_no_deps_unchanged force store fp save fresh rec stored
      hlk hc hd ⟨h1, h2⟩
  · intro hcond
    exact Meta.eval_corrupt_no_deps_changed force store fp save fresh ae rec stored
      hlk hc hd hcond

/-- Witness for C4-amended at a concrete input: a record with a checksum
field but no dependents field, evaluated with a changed hash and a missing
artifact. -/
theorem claim_C4_amended_witness :
    Meta.slookup [("f", ⟨some "old", none⟩)] "f" = some ⟨some "old", none⟩ ∧
    (((⟨some "old", none⟩ : Meta.Record).checksum = none →
      Meta.evalRoutine false [("f", ⟨some "old", none⟩)] "f" "p" "new" false =
        (Meta.Decision.corrupt, [("f", ⟨some "old", none⟩)])) ∧
    (∀ stored, (⟨some "old", none⟩ : Meta.Record).checksum = some stored →
      (⟨some "old", none⟩ : Meta.Record).dependents = none →
      (((Meta.evalRoutine false [("f", ⟨some "old", none⟩)] "f" "p" "new" false).1 ≠
          Meta.Decision.run ∧
       (stored = "new" ∧ false = false ∧ false = true →
          Meta.evalRoutine false [("f", ⟨some "old", none⟩)] "f" "p" "new" false =
            (Meta.Decision.skip, [("f", ⟨some "old", none⟩)])) ∧
       (stored = "new" ∧ false = false ∧ false = false →
          Meta.evalRoutine false [("f", ⟨some "old", none⟩)] "f" "p" "new" false =
            (Meta.Decision.corrupt, [("f", ⟨some "old", none⟩)])) ∧
       (¬(stored = "new" ∧ false = false) →
          Meta.evalRoutine false [("f", ⟨some "old", none⟩)] "f" "p" "new" false =
            (Meta.Decision.corrupt,
              Meta.supdate [("f", ⟨some "old", none⟩)] "f" ⟨some "new", none⟩)))))) :=
  ⟨by decide, claim_C4_amended false [("f", ⟨some "old", none⟩)] "f" "p" "new" false
    ⟨some "old", none⟩ (by decide)⟩

/-- Claim C7: the dependents set of a fingerprint record only grows — for
every key, a record's dependents set after one routine evaluation is a
superset of what it was before, adding an already-present output path
changes nothing, and after a `run` decision the routine's resolved output
path is present in its file's dependents set. -/
theorem claim_C7_dependents_grow (force : Bool) (store : Meta.Store)
    (fp save fresh : String) (ae : Bool) (k : String) (rec : Meta.Record)
    (deps : List String) (hWF : Meta.WFStore store)
    (hlk : Meta.slookup store k = some rec) (hd : rec.dependents = some deps) :
    (∃ rec' deps',
      Meta.slookup (Meta.evalRoutine force store fp save fresh ae).2 k = some rec' ∧
      rec'.dependents = some deps' ∧ deps ⊆ deps' ∧ (save ∈ deps → deps' = deps)) ∧
    ((Meta.evalRoutine force store fp save fresh ae).1 = Meta.Decision.run →
      ∃ rec' deps',
        Meta.slookup (Meta.evalRoutine force store fp save fresh ae).2 fp = some rec' ∧
        rec'.dependents = some deps' ∧ save ∈ deps') := by
  have hWFat : ∀ r, Meta.slookup store fp = some r → Meta.WFRecord r :=
    fun r h => hWF _ (Meta.slookup_mem _ _ _ h)
  refine ⟨Meta.eval_deps_monotone force store fp save fresh ae k rec deps hlk hd, ?_⟩
  intro hrun
  obtain ⟨rec', deps', h1, -, h3, h4⟩ :=
    Meta.eval_run_lookup force store fp save fresh ae hWFat hrun
  exact ⟨rec', deps', h1, h3, h4⟩

/-- Witness for C7 at a concrete input: a record with one dependent and a
changed hash, so the decision is `run` and the save path is appended. -/
theorem claim_C7_witness :
    Meta.WFStore [("a", ⟨some "old", some ["q"]⟩)] ∧
    Meta.slookup [("a", ⟨some "old", some ["q"]⟩)] "a" = some ⟨some "old", some ["q"]⟩ ∧
    (⟨some "old", some ["q"]⟩ : Meta.Record).dependents = some ["q"] ∧
    ((∃ rec' deps',
      Meta.slookup (Meta.evalRoutine false [("a", ⟨some "old", some ["q"]⟩)]
          "a" "p" "new" false).2 "a" = some rec' ∧
      rec'.dependents = some deps' ∧ ["q"] ⊆ deps' ∧ ("p" ∈ ["q"] → deps' = ["q"])) ∧
    ((Meta.evalRoutine false [("a", ⟨some "old", some ["q"]⟩)] "a" "p" "new" false).1 =
        Meta.Decision.run →
      ∃ rec' deps',
        Meta.slookup (Meta.evalRoutine false [("a", ⟨some "old", some ["q"]⟩)]
            "a" "p" "new" false).2 "a" = some rec' ∧
        rec'.dependents = some deps' ∧ "p" ∈ deps')) :=
  ⟨by decide, by decide, by decide,
    claim_C7_dependents_grow false [("a", ⟨some "old", some ["q"]⟩)] "a" "p" "new" false
      "a" ⟨some "old", some ["q"]⟩ ["q"] (by decide) (by decide) (by decide)⟩

/-- Claim C9: the streamed checksum over fixed-size chunk reads equals the
digest of the whole byte content taken at once, and identical byte content
always yields the same digest string. -/
theorem claim_C9_checksum_stream (H : List Nat → String) (c1 c2 : List Nat)
    (h : c1 = c2) :
    Hash.checksum H c1 = H c1 ∧ Hash.checksum H c1 = Hash.checksum H c2 := by
  subst h
  refine ⟨?_, rfl⟩
  unfold Hash.checksum
  rw [Hash.foldl_hashUpdate_readChunks]
  rw [List.nil_append]

/-- Witness for C9 at a concrete digest function and byte content. -/
theorem claim_C9_witness :
    ([1, 2, 3] : List Nat) = [1, 2, 3] ∧
    (Hash.checksum (fun l => if l = [] then "e" else "d") [1, 2, 3] =
        (fun l : List Nat => if l = [] then "e" else "d") [1, 2, 3] ∧
      Hash.checksum (fun l => if l = [] then "e" else "d") [1, 2, 3] =
        Hash.checksum (fun l => if l = [] then "e" else "d") [1, 2, 3]) :=
  ⟨rfl, claim_C9_checksum_stream (fun l => if l = [] then "e" else "d") [1, 2, 3] [1, 2, 3] rfl⟩

/-- Claim C3 evaluation: when a discovered routine name is absent from the
loaded module, the runner prints the internal-invariant message but then
calls `getattr`, which raises an uncaught `AttributeError`: the remaining
routines are never processed and the run aborts, instead of continuing.
The same happens for a resolved routine lacking `_figaroname` or
`_figaroext`. A routine that resolves cleanly succeeds, showing the abort
is caused by the missing attribute alone. -/
theorem claim_C3_invariant_violation_crashes :
    Runner.runRoutines "figures" [("good", ⟨[true], some "good", some "pdf"⟩)]
        ["missing", "good"] = Except.error "AttributeError: missing" ∧
    Runner.resolveRoutine "figures" [("f", ⟨[true], none, some "pdf"⟩)] "f" =
      Except.error "AttributeError: _figaroname on f" ∧
    Runner.resolveRoutine "figures" [("g", ⟨[true], some "g", none⟩)] "g" =
      Except.error "AttributeError: _figaroext on g" ∧
    Runner.runRoutines "figures" [("good", ⟨[true], some "good", some "pdf"⟩)]
        ["good"] = Except.ok [Runner.ResolveOutcome.resolved "figures/good.pdf"] :=
  ⟨rfl, rfl, rfl, rfl⟩

/-- Claim C5 counterexample: a tagged routine nested inside a class body is
returned by discovery (the visitor recurses through `generic_visit`), and a
routine carrying the tag decorator twice is returned twice, so the result
is neither restricted to top-level definitions nor duplicate-free. -/
theorem claim_C5_counterexample :
    FigCtl.visitStmts
        [FigCtl.Stmt.classDef "C"
          [FigCtl.Stmt.functionDef "m"
            [FigCtl.Expr.call (FigCtl.Expr.name "figarotag")] []]] = ["m"] ∧
    FigCtl.visitStmts
        [FigCtl.Stmt.functionDef "d"
          [FigCtl.Expr.call (FigCtl.Expr.name "figarotag"),
           FigCtl.Expr.call (FigCtl.Expr.name "figarotag")] []] = ["d", "d"] := by
  constructor <;> simp [FigCtl.visitStmts, FigCtl.isTagDec, FigCtl.funcId]

/-- Claim C5 as amended: discovery returns, for each file, the names of all
routine definitions at any nesting depth whose decorator list contains a
call of the bare name `figarotag`, with one entry per matching decorator,
in pre-order (declaration) order. -/
theorem claim_C5_amended (ts : List FigCtl.Stmt) :
    FigCtl.visitStmts ts =
      (FigCtl.allDefs ts).flatMap
        (fun p => (p.2.filter FigCtl.isTagDec).map (fun _ => p.1)) :=
  FigCtl.visitStmts_eq_flatMap ts

/-- Claim C6: a source file has no entry in the discovery result exactly
when it contains no tag-marked routine, and a name appears in a file's
entry exactly when some routine definition with that name carries the tag
marker — so the entry contains all tagged routine names and no untagged
ones. -/
theorem claim_C6_discovery_content (ts : List FigCtl.Stmt) (n : String) :
    (FigCtl.discoverFile ts = none ↔ ∀ m, ¬FigCtl.TaggedIn ts m) ∧
    (n ∈ (FigCtl.discoverFile ts).getD [] ↔ FigCtl.TaggedIn ts n) := by
  constructor
  · by_cases h : FigCtl.visitStmts ts = []
    · simp only [FigCtl.discoverFile, if_pos h, true_iff]
      intro m
      rw [← FigCtl.mem_visitStmts_iff]
      simp [h]
    · simp only [FigCtl.discoverFile, if_neg h]
      refine iff_of_false (by simp) ?_
      intro hall
      obtain ⟨x, hx⟩ := List.exists_mem_of_ne_nil _ h
      exact absurd ((FigCtl.mem_visitStmts_iff ts x).mp hx) (hall x)
  · by_cases h : FigCtl.visitStmts ts = []
    · simp only [FigCtl.discoverFile, if_pos h, Option.getD_none]
      rw [← FigCtl.mem_visitStmts_iff]
      simp [h]
    · simp only [FigCtl.discoverFile, if_neg h, Option.getD_some]
      exact FigCtl.mem_visitStmts_iff ts n

/-- Claim C8: the process exit code is 1 exactly on an input-validation
failure — no search directory given, an empty search-directory list, a
search root that does not exist or is not a directory, or an existing
output path that is not a directory — with the output-directory creation
side effect never performed in those cases; in every other case, whatever
the per-routine decisions of the orchestration loop were, the exit code
is 0. -/
theorem claim_C8_exit_codes (hash : String → String) (force : Bool)
    (dirs : Option (List Cli.DirInfo)) (outExists outIsDir : Bool)
    (s0 : Orch.RState) (jobs : List Orch.RoutineJob) :
    (Cli.mainExit hash force dirs outExists outIsDir s0 jobs = 1 ↔
      (dirs = none ∨ dirs = some [] ∨
        (∃ ds, dirs = some ds ∧ ∃ d ∈ ds, (d.pathExists = false ∨ d.isDir = false)) ∨
        (outExists = true ∧ outIsDir = false))) ∧
    ((Cli.validate dirs outExists outIsDir).2 = false ∨
      Cli.mainExit hash force dirs outExists outIsDir s0 jobs = 0) ∧
    (Cli.mainExit hash force dirs outExists outIsDir s0 jobs = 0 ∨
      Cli.mainExit hash force dirs outExists outIsDir s0 jobs = 1) := by
  cases dirs with
  | none => simp [Cli.mainExit, Cli.validate]
  | some ds =>
      by_cases hds : ds = []
      · subst hds
        simp [Cli.mainExit, Cli.validate]
      · by_cases hbad : ds.any (fun d => !d.pathExists || !d.isDir) = true
        · have hex : ∃ d ∈ ds, (d.pathExists = false ∨ d.isDir = false) := by
            rw [List.any_eq_true] at hbad
            obtain ⟨d, hd, hprop⟩ := hbad
            refine ⟨d, hd, ?_⟩
            simpa [Bool.or_eq_true, Bool.not_eq_true'] using hprop
          have hmain : Cli.mainExit hash force (some ds) outExists outIsDir s0 jobs = 1 := by
            simp [Cli.mainExit, Cli.validate, hds, hbad]
          have hsnd : (Cli.validate (some ds) outExists outIsDir).2 = false := by
            simp [Cli.validate, hds, hbad]
          refine ⟨?_, Or.inl hsnd, Or.inr hmain⟩
          rw [hmain]
          exact iff_of_true rfl (Or.inr (Or.inr (Or.inl ⟨ds, rfl, hex⟩)))
        · have hnex : ¬∃ d ∈ ds, (d.pathExists = false ∨ d.isDir = false) := by
            intro hex
            apply hbad
            rw [List.any_eq_true]
            obtain ⟨d, hd, hprop⟩ := hex
            refine ⟨d, hd, ?_⟩
            simpa [Bool.or_eq_true, Bool.not_eq_true'] using hprop
          by_cases hoe : outExists = false
          · have hmain : Cli.mainExit hash force (some ds) outExists outIsDir s0 jobs = 0 := by
              simp [Cli.mainExit, Cli.validate, hds, hbad, hoe]
            refine ⟨?_, Or.inr hmain, Or.inl hmain⟩
            rw [hmain]
            refine iff_of_false (by simp) ?_
            rintro (hc | hc | ⟨ds2, hds2, hex⟩ | ⟨h1, -⟩)
            · exact Option.noConfusion hc
            · exact hds (Option.some.inj hc)
            · obtain rfl : ds = ds2 := Option.some.inj hds2
              exact hnex hex
            · rw [hoe] at h1; exact Bool.noConfusion h1
          · have hoe2 : outExists = true := by
              cases outExists
              · exact absurd rfl hoe
              · rfl
            by_cases hod : outIsDir = false
            · have hmain : Cli.mainExit hash force (some ds) outExists outIsDir s0 jobs = 1 := by
                simp [Cli.mainExit, Cli.validate, hds, hbad, hoe2, hod]
              have hsnd : (Cli.validate (some ds) outExists outIsDir).2 = false := by
                simp [Cli.validate, hds, hbad, hoe2, hod]
              refine ⟨?_, Or.inl hsnd, Or.inr hmain⟩
              rw [hmain]
              exact iff_of_true rfl (Or.inr (Or.inr (Or.inr ⟨hoe2, hod⟩)))
            · have hod2 : outIsDir = true := by
                cases outIsDir
                · exact absurd rfl hod
                · rfl
              have hmain : Cli.mainExit hash force (some ds) outExists outIsDir s0 jobs = 0 := by
                simp [Cli.mainExit, Cli.validate, hds, hbad, hoe2, hod2]
              refine ⟨?_, Or.inr hmain, Or.inl hmain⟩
              rw [hmain]
              refine iff_of_false (by simp) ?_
              rintro (hc | hc | ⟨ds2, hds2, hex⟩ | ⟨-, h2⟩)
              · exact Option.noConfusion hc
              · exact hds (Option.some.inj hc)
              · obtain rfl : ds = ds2 := Option.some.inj hds2
                exact hnex hex
              · rw [hod2] at h2; exact Bool.noConfusion h2

/-- Claim C10: a routine whose decorators are all either bare names or
calls of qualified (attribute) references is never discovered; in
particular a routine decorated with bare `figarotag` or with a call of
`mod.figarotag` produces no discovery entry. -/
theorem claim_C10_non_call_decorators (ts : List FigCtl.Stmt) (n : String)
    (h : ∀ decs, (n, decs) ∈ FigCtl.allDefs ts → ∀ d ∈ decs,
      (∃ i, d = FigCtl.Expr.name i) ∨
      (∃ v a, d = FigCtl.Expr.call (FigCtl.Expr.attribute v a))) :
    n ∉ FigCtl.visitStmts ts ∧
    (∀ nm : String, FigCtl.visitStmts
      [FigCtl.Stmt.functionDef nm [FigCtl.Expr.name "figarotag"] []] = []) ∧
    (∀ nm m : String, FigCtl.visitStmts
      [FigCtl.Stmt.functionDef nm
        [FigCtl.Expr.call (FigCtl.Expr.attribute (FigCtl.Expr.name m) "figarotag")]
        []] = []) := by
  refine ⟨?_, ?_, ?_⟩
  · rw [FigCtl.mem_visitStmts_iff]
    rintro ⟨⟨m, decs⟩, hmem, heq, d, hd, htag⟩
    simp only at heq
    subst heq
    rcases h decs hmem d hd with ⟨i, rfl⟩ | ⟨v, a, rfl⟩
    · simp [FigCtl.isTagDec] at htag
    · simp [FigCtl.isTagDec, FigCtl.funcId] at htag
  · intro nm
    simp [FigCtl.visitStmts, FigCtl.isTagDec]
  · intro nm m
    simp [FigCtl.visitStmts, FigCtl.isTagDec, FigCtl.funcId]

/-- Witness for C10 at a concrete input: one routine decorated with a bare
`figarotag` and a call of `mod.figarotag`, which discovery ignores. -/
theorem claim_C10_witness :
    (∀ decs, ("r1", decs) ∈ FigCtl.allDefs
        [FigCtl.Stmt.functionDef "r1"
          [FigCtl.Expr.name "figarotag",
           FigCtl.Expr.call (FigCtl.Expr.attribute (FigCtl.Expr.name "mod") "figarotag")]
          []] →
      ∀ d ∈ decs, (∃ i, d = FigCtl.Expr.name i) ∨
        (∃ v a, d = FigCtl.Expr.call (FigCtl.Expr.attribute v a))) ∧
    ("r1" ∉ FigCtl.visitStmts
        [FigCtl.Stmt.functionDef "r1"
          [FigCtl.Expr.name "figarotag",
           FigCtl.Expr.call (FigCtl.Expr.attribute (FigCtl.Expr.name "mod") "figarotag")]
          []] ∧
      (∀ nm : String, FigCtl.visitStmts
        [FigCtl.Stmt.functionDef nm [FigCtl.Expr.name "figarotag"] []] = []) ∧
      (∀ nm m : String, FigCtl.visitStmts
        [FigCtl.Stmt.functionDef nm
          [FigCtl.Expr.call (FigCtl.Expr.attribute (FigCtl.Expr.name m) "figarotag")]
          []] = [])) := by
  have hh : ∀ decs, ("r1", decs) ∈ FigCtl.allDefs
      [FigCtl.Stmt.functionDef "r1"
        [FigCtl.Expr.name "figarotag",
         FigCtl.Expr.call (FigCtl.Expr.attribute (FigCtl.Expr.name "mod") "figarotag")]
        []] →
      ∀ d ∈ decs, (∃ i, d = FigCtl.Expr.name i) ∨
        (∃ v a, d = FigCtl.Expr.call (FigCtl.Expr.attribute v a)) := by
    intro decs hmem d hd
    simp [FigCtl.allDefs] at hmem
    subst hmem
    rcases List.mem_cons.mp hd with rfl | hd2
    · exact Or.inl ⟨"figarotag", rfl⟩
    · rcases List.mem_singleton.mp hd2 with rfl
      exact Or.inr ⟨FigCtl.Expr.name "mod", "figarotag", rfl⟩
  exact ⟨hh, claim_C10_non_call_decorators _ "r1" hh⟩

/-- Witness for C6 at a concrete input: a file with one tagged and one
untagged routine. -/
theorem claim_C6_witness :
    (FigCtl.discoverFile
        [FigCtl.Stmt.functionDef "t" [FigCtl.Expr.call (FigCtl.Expr.name "figarotag")] [],
         FigCtl.Stmt.functionDef "u" [] []] = none ↔
      ∀ m, ¬FigCtl.TaggedIn
        [FigCtl.Stmt.functionDef "t" [FigCtl.Expr.call (FigCtl.Expr.name "figarotag")] [],
         FigCtl.Stmt.functionDef "u" [] []] m) ∧
    ("t" ∈ (FigCtl.discoverFile
        [FigCtl.Stmt.functionDef "t" [FigCtl.Expr.call (FigCtl.Expr.name "figarotag")] [],
         FigCtl.Stmt.functionDef "u" [] []]).getD [] ↔
      FigCtl.TaggedIn
        [FigCtl.Stmt.functionDef "t" [FigCtl.Expr.call (FigCtl.Expr.name "figarotag")] [],
         FigCtl.Stmt.functionDef "u" [] []] "t") :=
  claim_C6_discovery_content
    [FigCtl.Stmt.functionDef "t" [FigCtl.Expr.call (FigCtl.Expr.name "figarotag")] [],
     FigCtl.Stmt.functionDef "u" [] []] "t"

/-- Witness for C8 at a concrete input: a single valid search root with an
existing output directory. -/
theorem claim_C8_witness :
    (Cli.mainExit (fun _ => "h") false (some [⟨true, true⟩]) true true ⟨[], []⟩ [] = 1 ↔
      (some [(⟨true, true⟩ : Cli.DirInfo)] = none ∨
        some [(⟨true, true⟩ : Cli.DirInfo)] = some [] ∨
        (∃ ds, some [(⟨true, true⟩ : Cli.DirInfo)] = some ds ∧
          ∃ d ∈ ds, (d.pathExists = false ∨ d.isDir = false)) ∨
        (true = true ∧ true = false))) ∧
    ((Cli.validate (some [⟨true, true⟩]) true true).2 = false ∨
      Cli.mainExit (fun _ => "h") false (some [⟨true, true⟩]) true true ⟨[], []⟩ [] = 0) ∧
    (Cli.mainExit (fun _ => "h") false (some [⟨true, true⟩]) true true ⟨[], []⟩ [] = 0 ∨
      Cli.mainExit (fun _ => "h") false (some [⟨true, true⟩]) true true ⟨[], []⟩ [] = 1) :=
  claim_C8_exit_codes (fun _ => "h") false (some [⟨true, true⟩]) true true ⟨[], []⟩ []
